import Mathlib

/-!
Verification of the cubesat image-classification unit's flash storage engine.

Shallow embedding of the Python modules `flash_interface.py`, `flash_actions.py`
and `recover_images.py`:

* Flash memory is a total byte map `Nat → Nat`; the physical chip's read
  command returns the stored bytes, so `read_bytes` reads the map directly.
* `write_bytes`' page-chunking loop is embedded by `writeChunks` (the chunk
  decomposition computed by the loop) and `writePages` (the per-chunk
  write-enable/program/busy-wait cycles).  Hardware success or failure of one
  program cycle is abstracted by an oracle `ok : Nat → List Nat → Bool`
  (address and chunk of the programming command); a failing chunk stops the
  loop, leaving earlier chunks written, exactly as the Python loop returns
  `False` from inside the `while` on the first exception.
* The recovery engine reads through the same device handle; its reads are
  abstracted by a reader function `rd : Nat → Nat → List Nat` (address and
  requested length to returned bytes), instantiated with the exact flash map
  for an ideally-behaving chip.
* File-system side effects (saving a recovered image) are out of scope:
  `recover_single_image` returns `some bytes` for the byte buffer it hands to
  `save_recovered_image`, and `none` where the Python returns `False` before
  reaching the save.
-/

set_option maxRecDepth 8192

namespace CubesatFlash

/-- Flash memory contents: a byte for every 32-bit address. -/
def Flash : Type := Nat → Nat

/-! ### Constants from `config.py`, `flash_interface.py`, `flash_actions.py`,
`recover_images.py` -/

def INDEX_1ST : Nat := 0x00000000

def INDEX_END : Nat := 0x00002FFF

def DATA_1ST : Nat := 0x00003000

def DATA_END : Nat := 0x07FFFFFF

def INDEX_ENTRY_SIZE : Nat := 8

def ADDRESS_SIZE : Nat := 4

def ERASED_BYTE : Nat := 0xFF

def PAGE_SIZE : Nat := 256

def READ_CHUNK_SIZE : Nat := 4091

/-- Fully erased flash: every byte is `0xFF`, the natural post-erase state. -/
def erasedFlash : Flash := fun _ => ERASED_BYTE

/-! ### FlashMemory driver (`flash_interface.py`) -/

/-- `FlashMemory.read_bytes`: returns exactly `length` bytes starting at
`address` (`length = 0` yields the empty list, as the Python returns `[]` for
non-positive lengths). -/
def read_bytes (f : Flash) (address length : Nat) : List Nat :=
  (List.range length).map (fun i => f (address + i))

/-- Sequential byte-for-byte store of `data` starting at `address`: the memory
effect of a sequence of successful program cycles. -/
def writeList (f : Flash) (address : Nat) : List Nat → Flash
  | [] => f
  | b :: bs => writeList (fun x => if x = address then b else f x) (address + 1) bs

/-- The chunk decomposition computed by the `while` loop of
`FlashMemory.write_bytes`: each chunk is `min (PAGE_SIZE - addr % PAGE_SIZE)
remaining` bytes, so no chunk crosses a 256-byte page boundary.  Each list
element is the `(current_address, data_chunk)` pair passed to `_write_page`. -/
def writeChunks (address : Nat) (data : List Nat) : List (Nat × List Nat) :=
  if h : data = [] then []
  else
    let offset_in_page := address % PAGE_SIZE
    let bytes_to_page_end := PAGE_SIZE - offset_in_page
    let chunk_size := min bytes_to_page_end data.length
    (address, data.take chunk_size) ::
      writeChunks (address + chunk_size) (data.drop chunk_size)
termination_by data.length
decreasing_by
  have hpos : 0 < data.length := List.length_pos.mpr h
  have hmod : address % PAGE_SIZE < PAGE_SIZE :=
    Nat.mod_lt address (by unfold PAGE_SIZE; omega)
  simp only [List.length_drop]
  omega

/-- One `_write_page` cycle per chunk (write-enable, page-program, busy-wait);
the oracle `ok` tells whether the hardware cycle for a given `(address, chunk)`
succeeds.  On the first failure the loop stops and reports `false`, as
`write_bytes` catches the exception and returns `False`; chunks already
programmed stay written. -/
def writePages (ok : Nat → List Nat → Bool) (f : Flash) :
    List (Nat × List Nat) → Bool × Flash
  | [] => (true, f)
  | (addr, chunk) :: rest =>
    if ok addr chunk then writePages ok (writeList f addr chunk) rest
    else (false, f)

/-- `FlashMemory.write_bytes`: rejects empty data (`return False` after the
"No data to write" warning), otherwise programs the page-bounded chunks in
order. -/
def write_bytes (ok : Nat → List Nat → Bool) (f : Flash) (address : Nat)
    (data : List Nat) : Bool × Flash :=
  if data = [] then (false, f)
  else writePages ok f (writeChunks address data)

/-- The guard in `_write_page` that raises `FlashMemoryError` for an oversized
chunk: `len(data_chunk) > self.PAGE_SIZE`. -/
def write_page_oversized (data_chunk : List Nat) : Bool :=
  PAGE_SIZE < data_chunk.length

/-- An always-succeeding hardware oracle: every program cycle completes. -/
def okAlways : Nat → List Nat → Bool := fun _ _ => true

/-! ### Index allocator and image store (`flash_actions.py`) -/

/-- `flash_actions.is_index_entry_empty`: an index entry is empty when its
first `INDEX_ENTRY_SIZE = 8` bytes are all `0xFF`
(`entry_bytes[:INDEX_ENTRY_SIZE] == [ERASED_BYTE] * INDEX_ENTRY_SIZE`). -/
def is_index_entry_empty (entry_bytes : List Nat) : Bool :=
  entry_bytes.take INDEX_ENTRY_SIZE == List.replicate INDEX_ENTRY_SIZE ERASED_BYTE

/-- `int.from_bytes(bs, "big")`: big-endian byte-list decoding. -/
def natFromBytesBE (bs : List Nat) : Nat :=
  bs.foldl (fun acc b => acc * 256 + b) 0

/-- `n.to_bytes(4, "big")`: big-endian 4-byte encoding of a value below
`2 ^ 32` (Python raises `OverflowError` above that; every encoded address here
is at most `DATA_END`). -/
def natToBytesBE4 (n : Nat) : List Nat :=
  [n / 2 ^ 24 % 256, n / 2 ^ 16 % 256, n / 2 ^ 8 % 256, n % 256]

/-- `flash_actions.parse_index_entry` (and its verbatim duplicate in
`recover_images.py`): first 4 bytes decode `start_addr`, the rest decode
`end_addr`, both big-endian. -/
def parse_index_entry (entry_bytes : List Nat) : Nat × Nat :=
  (natFromBytesBE (entry_bytes.take ADDRESS_SIZE),
   natFromBytesBE (entry_bytes.drop ADDRESS_SIZE))

/-- `flash_actions.create_index_entry`: 4 big-endian bytes of `start_addr`
followed by 4 big-endian bytes of `end_addr`. -/
def create_index_entry (start_addr end_addr : Nat) : List Nat :=
  natToBytesBE4 start_addr ++ natToBytesBE4 end_addr

/-- The `while` loop of `flash_actions.find_next_available_address`: scan
8-byte entries from `current_index_addr` while it is `≤ INDEX_END`, tracking
`last_data_end_addr`; stop at the first empty entry. -/
def find_next_aux (f : Flash) (current_index_addr last_data_end_addr : Nat) :
    Option (Nat × Nat) :=
  if current_index_addr ≤ INDEX_END then
    let entry_bytes := read_bytes f current_index_addr INDEX_ENTRY_SIZE
    if is_index_entry_empty entry_bytes then
      some (current_index_addr, last_data_end_addr)
    else
      find_next_aux f (current_index_addr + INDEX_ENTRY_SIZE)
        (parse_index_entry entry_bytes).2
  else none
termination_by INDEX_END + 1 - current_index_addr
decreasing_by
  unfold INDEX_ENTRY_SIZE
  omega

/-- `flash_actions.find_next_available_address`: scan from `INDEX_1ST` with the
running data cursor starting at `DATA_1ST`; `none` models the `(None, None)`
"index full" result. -/
def find_next_available_address (f : Flash) : Option (Nat × Nat) :=
  find_next_aux f INDEX_1ST DATA_1ST

/-- `flash_actions.validate_storage_capacity`: `False` when
`next_data_addr + image_size > DATA_END` or `next_index_addr > INDEX_END`. -/
def validate_storage_capacity (next_data_addr image_size next_index_addr : Nat) :
    Bool :=
  if next_data_addr + image_size > DATA_END then false
  else if next_index_addr > INDEX_END then false
  else true

/-- `flash_actions._store_image_to_flash`: write the blob bytes at
`next_data_addr`, then the index entry `(next_data_addr, next_data_addr +
len)` at `next_index_addr`; a failed `write_bytes` raises `FlashStorageError`,
which the caller turns into `None` — here `none` paired with the flash as the
failed write left it. -/
def storeCore (ok : Nat → List Nat → Bool) (f : Flash) (image_data : List Nat)
    (next_index_addr next_data_addr : Nat) : Option (Nat × Nat) × Flash :=
  let image_size := image_data.length
  let dataWrite := write_bytes ok f next_data_addr image_data
  if dataWrite.1 = false then (none, dataWrite.2)
  else
    let start_addr := next_data_addr
    let end_addr := next_data_addr + image_size
    let index_entry := create_index_entry start_addr end_addr
    let indexWrite := write_bytes ok dataWrite.2 next_index_addr index_entry
    if indexWrite.1 = false then (none, indexWrite.2)
    else (some (next_index_addr + INDEX_ENTRY_SIZE, end_addr), indexWrite.2)

/-- `flash_actions.store_image_to_flash`, with the captured image supplied as
`image_data` (the mock capture and file read are out of scope; `image_data =
[]` models both a failed read and an empty file, rejected by the
`if not image_data` check).  Returns the new cursors, or `none` on any
rejection or write failure, paired with the resulting flash contents. -/
def store_image_to_flash (ok : Nat → List Nat → Bool) (f : Flash)
    (image_data : List Nat) (next_index_addr next_data_addr : Nat) :
    Option (Nat × Nat) × Flash :=
  if image_data = [] then (none, f)
  else if validate_storage_capacity next_data_addr image_data.length
      next_index_addr = false then (none, f)
  else storeCore ok f image_data next_index_addr next_data_addr

/-! ### Recovery engine (`recover_images.py`) -/

/-- A flash device as the recovery tool sees it: the bytes its
`read_bytes(address, length)` calls return.  An ideally-behaving chip is
`exactReader f`; a deviating `Reader` models transport faults such as short
reads. -/
def Reader : Type := Nat → Nat → List Nat

/-- The reader backed by actual flash contents: every read returns exactly the
requested bytes. -/
def exactReader (f : Flash) : Reader := fun address length =>
  read_bytes f address length

/-- `recover_images.is_index_entry_empty`: NOTE — unlike the allocator's test,
this checks only the first `ADDRESS_SIZE = 4` bytes
(`entry_bytes[:ADDRESS_SIZE] == [ERASED_BYTE] * ADDRESS_SIZE`), although its
own docstring says "all bytes are 0xFF". -/
def recover_is_index_entry_empty (entry_bytes : List Nat) : Bool :=
  entry_bytes.take ADDRESS_SIZE == List.replicate ADDRESS_SIZE ERASED_BYTE

/-- The `while bytes_read < total_size` loop of
`recover_images.read_image_data_in_chunks`: read `min READ_CHUNK_SIZE
remaining` bytes per iteration, abort on an empty chunk, extend the
accumulator by whatever came back. -/
def read_chunks_aux (rd : Reader) (start_addr total_size : Nat)
    (bytes_read : Nat) (image_data : List Nat) : Option (List Nat) :=
  if hlt : bytes_read < total_size then
    let bytes_to_read := min READ_CHUNK_SIZE (total_size - bytes_read)
    let chunk_data := rd (start_addr + bytes_read) bytes_to_read
    if hc : chunk_data = [] then none
    else read_chunks_aux rd start_addr total_size
      (bytes_read + chunk_data.length) (image_data ++ chunk_data)
  else some image_data
termination_by total_size - bytes_read
decreasing_by
  have hpos : 0 < chunk_data.length := List.length_pos.mpr hc
  show total_size - (bytes_read + chunk_data.length) < total_size - bytes_read
  omega

/-- `recover_images.read_image_data_in_chunks`. -/
def read_image_data_in_chunks (rd : Reader) (start_addr total_size : Nat) :
    Option (List Nat) :=
  read_chunks_aux rd start_addr total_size 0 []

/-- `recover_images.recover_single_image`: compute `total_size = end_addr -
start_addr` and reject non-positive sizes (Python compares the signed
difference to 0, i.e. `end_addr ≤ start_addr` here), read in chunks, reject a
byte count different from `total_size`, then hand the buffer to
`save_recovered_image` — the returned `some` value is that buffer (file IO out
of scope, the image number only names the output file). -/
def recover_single_image (rd : Reader) (start_addr end_addr : Nat) :
    Option (List Nat) :=
  if end_addr ≤ start_addr then none
  else
    let total_size := end_addr - start_addr
    match read_image_data_in_chunks rd start_addr total_size with
    | none => none
    | some image_data =>
      if image_data.length ≠ total_size then none
      else some image_data

/-- The `while` loop of `recover_images.scan_and_recover_images`: walk the
index region, stop at the first (recovery-style) empty entry, count every
non-empty entry and every successful recovery. -/
def scan_recover_aux (rd : Reader) (current_index_addr image_count
    recovered_count : Nat) : Nat × Nat :=
  if current_index_addr ≤ INDEX_END then
    let entry_bytes := rd current_index_addr INDEX_ENTRY_SIZE
    if recover_is_index_entry_empty entry_bytes then
      (recovered_count, image_count)
    else
      let p := parse_index_entry entry_bytes
      let image_count' := image_count + 1
      let recovered' :=
        if (recover_single_image rd p.1 p.2).isSome then recovered_count + 1
        else recovered_count
      scan_recover_aux rd (current_index_addr + INDEX_ENTRY_SIZE)
        image_count' recovered'
  else (recovered_count, image_count)
termination_by INDEX_END + 1 - current_index_addr
decreasing_by
  unfold INDEX_ENTRY_SIZE
  omega

/-- `recover_images.scan_and_recover_images`: returns
`(recovered_count, image_count)`. -/
def scan_and_recover_images (rd : Reader) : Nat × Nat :=
  scan_recover_aux rd INDEX_1ST 0 0

/-! ### Iterated store cycles -/

/-- Run a sequence of store cycles from a given state, as the main loop does
with the cursors returned by each previous cycle; `none` as soon as one cycle
fails. -/
def runFrom (ok : Nat → List Nat → Bool) (st : Flash × Nat × Nat) :
    List (List Nat) → Option (Flash × Nat × Nat)
  | [] => some st
  | b :: bs =>
    match store_image_to_flash ok st.1 b st.2.1 st.2.2 with
    | (some cursors, f') => runFrom ok (f', cursors.1, cursors.2) bs
    | (none, _) => none

/-- A sequence of store cycles starting from fully erased flash with the
initial cursors `(INDEX_1ST, DATA_1ST)` (what `find_next_available_address`
reports on erased flash). -/
def runStores (ok : Nat → List Nat → Bool) (blobs : List (List Nat)) :
    Option (Flash × Nat × Nat) :=
  runFrom ok (erasedFlash, INDEX_1ST, DATA_1ST) blobs

/-- Total byte length of a list of blobs. -/
def sumLens (blobs : List (List Nat)) : Nat :=
  (blobs.map List.length).sum

/-- Start address of blob `i` in the data region once `blobs` have been stored
back-to-back from `DATA_1ST`; `dataStart blobs blobs.length` is the end of the
last blob. -/
def dataStart (blobs : List (List Nat)) (i : Nat) : Nat :=
  DATA_1ST + sumLens (blobs.take i)

/-- The flash contents produced by successfully storing `blobs` in order
starting from state `(f, ia, da)`: each cycle writes the blob's bytes at the
data cursor and its index entry at the index cursor. -/
def buildFlash (f : Flash) (ia da : Nat) : List (List Nat) → Flash
  | [] => f
  | b :: bs =>
    buildFlash
      (writeList (writeList f da b) ia (create_index_entry da (da + b.length)))
      (ia + INDEX_ENTRY_SIZE) (da + b.length) bs

/-- The flash contents after successfully storing `blobs` on erased flash. -/
def finalFlash (blobs : List (List Nat)) : Flash :=
  buildFlash erasedFlash INDEX_1ST DATA_1ST blobs

/-- Chunk addresses are consecutive: each chunk starts where the previous one
ended, the first at the given address. -/
def consecFrom : Nat → List (Nat × List Nat) → Prop
  | _, [] => True
  | a, (addr, chunk) :: rest => addr = a ∧ consecFrom (a + chunk.length) rest

/-- State invariant after a successful sequence of store cycles: the cursors
are fully determined by the blobs stored so far, the index region holds one
entry per blob laid out back-to-back from `DATA_1ST`, and the rest of the
index region is still erased. -/
def StoreInv (blobs : List (List Nat)) (f : Flash) (ia da : Nat) : Prop :=
  ia = 8 * blobs.length ∧
  da = dataStart blobs blobs.length ∧
  da ≤ DATA_END ∧
  8 * blobs.length ≤ INDEX_END + 1 ∧
  (∀ b ∈ blobs, b ≠ []) ∧
  (∀ i, i < blobs.length →
    read_bytes f (8 * i) INDEX_ENTRY_SIZE =
      create_index_entry (dataStart blobs i) (dataStart blobs (i + 1))) ∧
  (∀ a, 8 * blobs.length ≤ a → a ≤ INDEX_END → f a = ERASED_BYTE)

/-! ## Lemmas about the driver's write primitives -/

theorem writeList_apply (d : List Nat) : ∀ (f : Flash) (a x : Nat),
    writeList f a d x =
      if a ≤ x ∧ x < a + d.length then d.getD (x - a) 0 else f x := by
  induction d with
  | nil =>
    intro f a x
    show f x = if a ≤ x ∧ x < a + List.length [] then _ else f x
    rw [if_neg (by simp)]
  | cons b bs ih =>
    intro f a x
    simp only [writeList, List.length_cons]
    rw [ih]
    by_cases h1 : a + 1 ≤ x ∧ x < a + 1 + bs.length
    · rw [if_pos h1, if_pos (by omega)]
      have hx : x - a = (x - (a + 1)) + 1 := by omega
      rw [hx, List.getD_cons_succ]
    · rw [if_neg h1]
      by_cases h2 : x = a
      · subst h2
        rw [if_pos (by omega)]
        simp
      · rw [if_neg (by simp [h2]), if_neg (by omega)]

theorem writeList_outside {d : List Nat} {f : Flash} {a x : Nat}
    (h : x < a ∨ a + d.length ≤ x) : writeList f a d x = f x := by
  rw [writeList_apply, if_neg (by omega)]

theorem writeList_append (xs : List Nat) : ∀ (ys : List Nat) (f : Flash) (a : Nat),
    writeList f a (xs ++ ys) = writeList (writeList f a xs) (a + xs.length) ys := by
  induction xs with
  | nil => intro ys f a; simp [writeList]
  | cons b bs ih =>
    intro ys f a
    simp only [List.cons_append, writeList, List.length_cons, List.append_eq]
    rw [ih]
    have harith : a + 1 + bs.length = a + (bs.length + 1) := by omega
    rw [harith]

theorem writeChunks_nil (a : Nat) : writeChunks a [] = [] := by
  rw [writeChunks]
  simp

theorem writeChunks_cons {d : List Nat} (hd : d ≠ []) (a : Nat) :
    writeChunks a d =
      (a, d.take (min (PAGE_SIZE - a % PAGE_SIZE) d.length)) ::
        writeChunks (a + min (PAGE_SIZE - a % PAGE_SIZE) d.length)
          (d.drop (min (PAGE_SIZE - a % PAGE_SIZE) d.length)) := by
  rw [writeChunks]
  simp [hd]

theorem writeChunks_flatten (a : Nat) (d : List Nat) :
    ((writeChunks a d).map Prod.snd).flatten = d := by
  induction a, d using writeChunks.induct with
  | case1 a => rw [writeChunks_nil]; rfl
  | case2 a d h off pe cs ih =>
    rw [writeChunks_cons h]
    show (List.take cs d :: (writeChunks (a + cs) (List.drop cs d)).map
      Prod.snd).flatten = d
    rw [List.flatten_cons, ih, List.take_append_drop]

theorem writeChunks_consec (a : Nat) (d : List Nat) :
    consecFrom a (writeChunks a d) := by
  induction a, d using writeChunks.induct with
  | case1 a => rw [writeChunks_nil]; trivial
  | case2 a d h off pe cs ih =>
    rw [writeChunks_cons h]
    refine ⟨rfl, ?_⟩
    show consecFrom (a + (List.take cs d).length)
      (writeChunks (a + cs) (List.drop cs d))
    have hcs : cs ≤ d.length := min_le_right _ _
    rw [List.length_take, Nat.min_eq_left hcs]
    exact ih

theorem writeChunks_mem_bounds (a : Nat) (d : List Nat) :
    ∀ p ∈ writeChunks a d,
      (a ≤ p.1 ∧ p.1 + p.2.length ≤ a + d.length) ∧
      1 ≤ p.2.length ∧ p.1 % PAGE_SIZE + p.2.length ≤ PAGE_SIZE := by
  induction a, d using writeChunks.induct with
  | case1 a => rw [writeChunks_nil]; intro p hp; cases hp
  | case2 a d h off pe cs ih =>
    rw [writeChunks_cons h]
    intro p hp
    have hmod : a % PAGE_SIZE < PAGE_SIZE := Nat.mod_lt a (by unfold PAGE_SIZE; omega)
    have hlen : 0 < d.length := List.length_pos.mpr h
    have hcs : cs = min (PAGE_SIZE - a % PAGE_SIZE) d.length := rfl
    have hcs1 : 1 ≤ cs := by rw [hcs]; omega
    have hcsle : cs ≤ d.length := by rw [hcs]; omega
    rcases List.mem_cons.mp hp with hhead | htail
    · subst hhead
      dsimp only
      refine ⟨⟨Nat.le_refl a, ?_⟩, ?_, ?_⟩
      · rw [List.length_take, Nat.min_eq_left hcsle]
        omega
      · rw [List.length_take, Nat.min_eq_left hcsle]
        omega
      · rw [List.length_take, Nat.min_eq_left hcsle]
        rw [hcs] at hcs1 ⊢
        omega
    · have := ih p htail
      rw [List.length_drop] at this
      refine ⟨⟨by omega, by omega⟩, this.2.1, this.2.2⟩

theorem writeChunks_head_length {d : List Nat} (hd : d ≠ []) (a : Nat) :
    ((writeChunks a d).map (fun p => p.2.length)).head? =
      some (min d.length (PAGE_SIZE - a % PAGE_SIZE)) := by
  rw [writeChunks_cons hd]
  have hcsle : min (PAGE_SIZE - a % PAGE_SIZE) d.length ≤ d.length :=
    min_le_right _ _
  simp [List.length_take, Nat.min_eq_left hcsle, Nat.min_comm]

theorem writeChunks_foldl (a : Nat) (d : List Nat) : ∀ f : Flash,
    (writeChunks a d).foldl (fun g p => writeList g p.1 p.2) f =
      writeList f a d := by
  induction a, d using writeChunks.induct with
  | case1 a => intro f; rw [writeChunks_nil]; rfl
  | case2 a d h off pe cs ih =>
    intro f
    rw [writeChunks_cons h]
    show (writeChunks (a + cs) (List.drop cs d)).foldl
      (fun g p => writeList g p.1 p.2) (writeList f a (List.take cs d)) =
      writeList f a d
    rw [ih]
    have hcsle : cs ≤ d.length := min_le_right _ _
    have := writeList_append (d.take cs) (d.drop cs) f a
    rw [List.take_append_drop, List.length_take, Nat.min_eq_left hcsle] at this
    exact this.symm

/-! Lemmas about the per-chunk programming loop. -/

theorem writePages_true {ok : Nat → List Nat → Bool} (L : List (Nat × List Nat)) :
    ∀ f : Flash, (writePages ok f L).1 = true →
      (writePages ok f L).2 = L.foldl (fun g p => writeList g p.1 p.2) f := by
  induction L with
  | nil => intro f _; rfl
  | cons p rest ih =>
    intro f h
    by_cases hok : ok p.1 p.2
    · simp only [writePages, hok, if_true, List.foldl_cons] at h ⊢
      exact ih _ h
    · simp only [writePages, hok, if_false] at h
      exact absurd h (by simp)

theorem writePages_okAlways (L : List (Nat × List Nat)) : ∀ f : Flash,
    writePages okAlways f L =
      (true, L.foldl (fun g p => writeList g p.1 p.2) f) := by
  induction L with
  | nil => intro f; rfl
  | cons p rest ih =>
    intro f
    simp only [writePages, okAlways, if_true, List.foldl_cons]
    exact ih _

theorem writePages_outside {ok : Nat → List Nat → Bool}
    (L : List (Nat × List Nat)) : ∀ (f : Flash) (x : Nat),
    (∀ p ∈ L, x < p.1 ∨ p.1 + p.2.length ≤ x) →
      (writePages ok f L).2 x = f x := by
  induction L with
  | nil => intro f x _; rfl
  | cons p rest ih =>
    intro f x h
    by_cases hok : ok p.1 p.2
    · simp only [writePages, hok, if_true]
      rw [ih _ _ (fun q hq => h q (List.mem_cons_of_mem _ hq))]
      exact writeList_outside (h p (List.mem_cons_self _ _))
    · simp only [writePages]
      rw [if_neg hok]

theorem write_bytes_nil (ok : Nat → List Nat → Bool) (f : Flash) (a : Nat) :
    write_bytes ok f a [] = (false, f) := by
  simp [write_bytes]

theorem write_bytes_success {ok : Nat → List Nat → Bool} {f : Flash}
    {a : Nat} {d : List Nat} (h : (write_bytes ok f a d).1 = true) :
    (write_bytes ok f a d).2 = writeList f a d := by
  by_cases hd : d = []
  · subst hd
    rw [write_bytes_nil] at h
    exact absurd h (by simp)
  · unfold write_bytes at h ⊢
    rw [if_neg hd] at h ⊢
    rw [writePages_true _ _ h, writeChunks_foldl]

theorem write_bytes_okAlways {d : List Nat} (hd : d ≠ []) (f : Flash) (a : Nat) :
    write_bytes okAlways f a d = (true, writeList f a d) := by
  unfold write_bytes
  rw [if_neg hd, writePages_okAlways, writeChunks_foldl]

theorem write_bytes_outside {ok : Nat → List Nat → Bool} {f : Flash}
    {a x : Nat} {d : List Nat} (h : x < a ∨ a + d.length ≤ x) :
    (write_bytes ok f a d).2 x = f x := by
  by_cases hd : d = []
  · subst hd; rw [write_bytes_nil]
  · unfold write_bytes
    rw [if_neg hd]
    refine writePages_outside _ _ _ (fun p hp => ?_)
    have := writeChunks_mem_bounds a d p hp
    omega

theorem write_bytes_fail_oracle {d : List Nat} (hd : d ≠ []) (f : Flash)
    (a : Nat) : (write_bytes (fun _ _ => false) f a d).1 = false := by
  unfold write_bytes
  rw [if_neg hd, writeChunks_cons hd]
  simp [writePages]

/-! ## Lemmas about reads -/

theorem read_bytes_length (f : Flash) (a n : Nat) :
    (read_bytes f a n).length = n := by
  simp [read_bytes]

theorem read_bytes_zero (f : Flash) (a : Nat) : read_bytes f a 0 = [] := rfl

theorem read_bytes_getElem (f : Flash) (a n i : Nat)
    (h : i < (read_bytes f a n).length) :
    (read_bytes f a n)[i] = f (a + i) := by
  simp [read_bytes]

theorem read_bytes_split (f : Flash) (a m k : Nat) :
    read_bytes f a (m + k) = read_bytes f a m ++ read_bytes f (a + m) k := by
  refine List.ext_getElem (by simp [read_bytes_length]) (fun i h1 h2 => ?_)
  rw [read_bytes_getElem f a (m + k) i h1]
  rw [read_bytes_length] at h1
  by_cases hi : i < m
  · rw [List.getElem_append_left (by rw [read_bytes_length]; exact hi)]
    rw [read_bytes_getElem f a m i (by rw [read_bytes_length]; exact hi)]
  · rw [List.getElem_append_right (by rw [read_bytes_length]; omega)]
    rw [read_bytes_getElem f (a + m) k _
      (by simp only [read_bytes_length]; omega)]
    congr 1
    rw [read_bytes_length]
    omega

theorem read_bytes_congr {f g : Flash} {a n : Nat}
    (h : ∀ i, i < n → f (a + i) = g (a + i)) :
    read_bytes f a n = read_bytes g a n := by
  refine List.ext_getElem (by simp [read_bytes_length]) (fun i h1 h2 => ?_)
  rw [read_bytes_getElem f a n i h1, read_bytes_getElem g a n i h2]
  rw [read_bytes_length] at h1
  exact h i h1

theorem read_bytes_writeList (f : Flash) (a : Nat) (d : List Nat) :
    read_bytes (writeList f a d) a d.length = d := by
  refine List.ext_getElem (by simp [read_bytes_length]) (fun i h1 h2 => ?_)
  rw [read_bytes_getElem _ a d.length i h1]
  rw [read_bytes_length] at h1
  rw [writeList_apply, if_pos (by omega)]
  rw [Nat.add_sub_cancel_left]
  exact List.getD_eq_getElem d 0 h1

/-! ## Lemmas about index-entry encoding -/

theorem natFromBytesBE_natToBytesBE4 {n : Nat} (h : n < 2 ^ 32) :
    natFromBytesBE (natToBytesBE4 n) = n := by
  simp only [natFromBytesBE, natToBytesBE4, List.foldl_cons, List.foldl_nil]
  omega

theorem create_index_entry_length (s e : Nat) :
    (create_index_entry s e).length = 8 := rfl

theorem create_index_entry_ne_nil (s e : Nat) : create_index_entry s e ≠ [] := by
  intro h
  have := congrArg List.length h
  rw [create_index_entry_length] at this
  exact absurd this (by simp)

theorem parse_create_index_entry {s e : Nat} (hs : s < 2 ^ 32)
    (he : e < 2 ^ 32) :
    parse_index_entry (create_index_entry s e) = (s, e) := by
  have htake : (create_index_entry s e).take ADDRESS_SIZE = natToBytesBE4 s := by
    simp [create_index_entry, natToBytesBE4, ADDRESS_SIZE]
  have hdrop : (create_index_entry s e).drop ADDRESS_SIZE = natToBytesBE4 e := by
    simp [create_index_entry, natToBytesBE4, ADDRESS_SIZE]
  rw [parse_index_entry, htake, hdrop,
    natFromBytesBE_natToBytesBE4 hs, natFromBytesBE_natToBytesBE4 he]

theorem is_index_entry_empty_iff (entry : List Nat) :
    is_index_entry_empty entry = true ↔
      entry.take INDEX_ENTRY_SIZE = List.replicate INDEX_ENTRY_SIZE ERASED_BYTE := by
  simp [is_index_entry_empty]

theorem is_index_entry_empty_create {s : Nat} (hs : s ≤ DATA_END) (e : Nat) :
    is_index_entry_empty (create_index_entry s e) = false := by
  have hbyte : s / 2 ^ 24 % 256 ≠ 255 := by
    unfold DATA_END at hs
    omega
  rw [Bool.eq_false_iff]
  intro hemp
  rw [is_index_entry_empty_iff] at hemp
  rw [List.take_of_length_le
    (by rw [create_index_entry_length]; decide)] at hemp
  have h0 := congrArg List.head? hemp
  simp [create_index_entry, natToBytesBE4, INDEX_ENTRY_SIZE, ERASED_BYTE] at h0
  exact hbyte h0

theorem is_index_entry_empty_of_erased {f : Flash} {a : Nat}
    (h : ∀ j, j < 8 → f (a + j) = ERASED_BYTE) :
    is_index_entry_empty (read_bytes f a INDEX_ENTRY_SIZE) = true := by
  rw [is_index_entry_empty_iff]
  rw [List.take_of_length_le (by rw [read_bytes_length])]
  rw [List.eq_replicate_iff]
  constructor
  · rw [read_bytes_length]
  · intro b hb
    rw [List.mem_iff_getElem] at hb
    obtain ⟨i, hi, hbi⟩ := hb
    rw [read_bytes_getElem f a _ i hi] at hbi
    rw [read_bytes_length] at hi
    rw [← hbi]
    exact h i hi

/-! ## Lemmas about the index scan -/

theorem find_next_aux_stop {f : Flash} {cur acc : Nat} (h : INDEX_END < cur) :
    find_next_aux f cur acc = none := by
  rw [find_next_aux]
  rw [if_neg (by omega)]

theorem find_next_aux_found {f : Flash} {cur acc : Nat} (h1 : cur ≤ INDEX_END)
    (h2 : is_index_entry_empty (read_bytes f cur INDEX_ENTRY_SIZE) = true) :
    find_next_aux f cur acc = some (cur, acc) := by
  rw [find_next_aux]
  rw [if_pos h1]
  simp only [h2, if_true]

theorem find_next_aux_step {f : Flash} {cur acc : Nat} (h1 : cur ≤ INDEX_END)
    (h2 : is_index_entry_empty (read_bytes f cur INDEX_ENTRY_SIZE) = false) :
    find_next_aux f cur acc =
      find_next_aux f (cur + INDEX_ENTRY_SIZE)
        (parse_index_entry (read_bytes f cur INDEX_ENTRY_SIZE)).2 := by
  rw [find_next_aux]
  rw [if_pos h1]
  simp only [h2, Bool.false_eq_true, if_false]

theorem find_next_aux_none_of_full {f : Flash} :
    ∀ (n j acc : Nat), 1536 - j ≤ n →
      (∀ i, j ≤ i → i < 1536 →
        is_index_entry_empty (read_bytes f (8 * i) INDEX_ENTRY_SIZE) = false) →
      find_next_aux f (8 * j) acc = none := by
  intro n
  induction n with
  | zero =>
    intro j acc hn _
    exact find_next_aux_stop (by unfold INDEX_END; omega)
  | succ n ih =>
    intro j acc hn h
    by_cases hj : j < 1536
    · rw [find_next_aux_step (by unfold INDEX_END; omega) (h j le_rfl hj)]
      have h8 : 8 * j + INDEX_ENTRY_SIZE = 8 * (j + 1) := by
        unfold INDEX_ENTRY_SIZE; omega
      rw [h8]
      exact ih (j + 1) _ (by omega) (fun i hi1 hi2 => h i (by omega) hi2)
    · exact find_next_aux_stop (by unfold INDEX_END; omega)

theorem find_next_aux_some_of_first_empty {f : Flash} :
    ∀ (n j k acc : Nat), k - j ≤ n → j ≤ k → k ≤ 1535 →
      is_index_entry_empty (read_bytes f (8 * k) INDEX_ENTRY_SIZE) = true →
      (∀ i, j ≤ i → i < k →
        is_index_entry_empty (read_bytes f (8 * i) INDEX_ENTRY_SIZE) = false) →
      find_next_aux f (8 * j) acc =
        some (8 * k, if j = k then acc
          else (parse_index_entry
            (read_bytes f (8 * (k - 1)) INDEX_ENTRY_SIZE)).2) := by
  intro n
  induction n with
  | zero =>
    intro j k acc hn hjk hk hemp _
    have hjeq : j = k := by omega
    subst hjeq
    rw [if_pos rfl]
    exact find_next_aux_found (by unfold INDEX_END; omega) hemp
  | succ n ih =>
    intro j k acc hn hjk hk hemp hne
    by_cases hjeq : j = k
    · subst hjeq
      rw [if_pos rfl]
      exact find_next_aux_found (by unfold INDEX_END; omega) hemp
    · have hjlt : j < k := by omega
      rw [find_next_aux_step (by unfold INDEX_END; omega) (hne j le_rfl hjlt)]
      have h8 : 8 * j + INDEX_ENTRY_SIZE = 8 * (j + 1) := by
        unfold INDEX_ENTRY_SIZE; omega
      rw [h8]
      rw [ih (j + 1) k _ (by omega) (by omega) hk hemp
        (fun i h1 h2 => hne i (by omega) h2)]
      by_cases hj1 : j + 1 = k
      · rw [if_pos hj1, if_neg hjeq]
        have hk1 : k - 1 = j := by omega
        rw [hk1]
      · rw [if_neg hj1, if_neg hjeq]

/-! ## Lemmas about single store cycles -/

theorem validate_true_iff (n s i : Nat) :
    validate_storage_capacity n s i = true ↔
      n + s ≤ DATA_END ∧ i ≤ INDEX_END := by
  unfold validate_storage_capacity
  by_cases h1 : n + s > DATA_END <;> by_cases h2 : i > INDEX_END <;>
    simp [h1, h2] <;> omega

theorem validate_false_iff (n s i : Nat) :
    validate_storage_capacity n s i = false ↔
      DATA_END < n + s ∨ INDEX_END < i := by
  rw [← Bool.not_eq_true, validate_true_iff]
  omega

theorem store_empty (ok : Nat → List Nat → Bool) (f : Flash) (ia da : Nat) :
    store_image_to_flash ok f [] ia da = (none, f) := by
  simp [store_image_to_flash]

theorem store_invalid {image_data : List Nat} (ok : Nat → List Nat → Bool)
    (f : Flash) (ia da : Nat)
    (h : validate_storage_capacity da image_data.length ia = false) :
    store_image_to_flash ok f image_data ia da = (none, f) := by
  by_cases hd : image_data = []
  · subst hd
    exact store_empty ok f ia da
  · simp [store_image_to_flash, hd, h]

theorem store_success_shape {ok : Nat → List Nat → Bool} {f f2 : Flash}
    {image_data : List Nat} {ia da : Nat} {c : Nat × Nat}
    (h : store_image_to_flash ok f image_data ia da = (some c, f2)) :
    image_data ≠ [] ∧
    validate_storage_capacity da image_data.length ia = true ∧
    f2 = writeList (writeList f da image_data) ia
        (create_index_entry da (da + image_data.length)) ∧
    c = (ia + INDEX_ENTRY_SIZE, da + image_data.length) := by
  by_cases hd : image_data = []
  · rw [hd, store_empty] at h
    simp at h
  · rcases hval : validate_storage_capacity da image_data.length ia with _ | _
    · rw [store_invalid ok f ia da hval] at h
      simp at h
    · refine ⟨hd, rfl, ?_⟩
      simp only [store_image_to_flash, storeCore, if_neg hd, hval,
        Bool.true_eq_false, if_false] at h
      rcases hw1 : (write_bytes ok f da image_data).1 with _ | _
      · rw [hw1] at h
        simp at h
      · rw [hw1] at h
        simp only [Bool.true_eq_false, if_false] at h
        rcases hw2 : (write_bytes ok (write_bytes ok f da image_data).2 ia
            (create_index_entry da (da + image_data.length))).1 with _ | _
        · rw [hw2] at h
          simp at h
        · rw [hw2] at h
          simp only [Bool.true_eq_false, if_false, Prod.mk.injEq,
            Option.some.injEq] at h
          obtain ⟨hc, hf2⟩ := h
          refine ⟨?_, hc.symm⟩
          rw [← hf2, write_bytes_success hw2, write_bytes_success hw1]

/-! ## Lemmas about sequences of store cycles -/

theorem runFrom_nil (ok : Nat → List Nat → Bool) (st : Flash × Nat × Nat) :
    runFrom ok st [] = some st := rfl

theorem runFrom_cons_some {ok : Nat → List Nat → Bool}
    {st : Flash × Nat × Nat} {b : List Nat} {bs : List (List Nat)}
    {c : Nat × Nat} {f2 : Flash}
    (h : store_image_to_flash ok st.1 b st.2.1 st.2.2 = (some c, f2)) :
    runFrom ok st (b :: bs) = runFrom ok (f2, c.1, c.2) bs := by
  rw [runFrom, h]

theorem runFrom_cons_none {ok : Nat → List Nat → Bool}
    {st : Flash × Nat × Nat} {b : List Nat} {bs : List (List Nat)} {f2 : Flash}
    (h : store_image_to_flash ok st.1 b st.2.1 st.2.2 = (none, f2)) :
    runFrom ok st (b :: bs) = none := by
  rw [runFrom, h]

theorem runFrom_append (ok : Nat → List Nat → Bool) (bs : List (List Nat)) :
    ∀ (cs : List (List Nat)) (st : Flash × Nat × Nat),
    runFrom ok st (bs ++ cs) =
      (runFrom ok st bs).bind (fun st2 => runFrom ok st2 cs) := by
  induction bs with
  | nil => intro cs st; rfl
  | cons b bs ih =>
    intro cs st
    rw [List.cons_append]
    rcases hst : store_image_to_flash ok st.1 b st.2.1 st.2.2 with ⟨res, f2⟩
    cases res with
    | none =>
      rw [runFrom_cons_none hst, runFrom_cons_none hst]
      rfl
    | some c =>
      rw [runFrom_cons_some hst, runFrom_cons_some hst, ih]

theorem sumLens_nil : sumLens [] = 0 := rfl

theorem sumLens_cons (b : List Nat) (bs : List (List Nat)) :
    sumLens (b :: bs) = b.length + sumLens bs := by
  simp [sumLens]

theorem sumLens_append (bs cs : List (List Nat)) :
    sumLens (bs ++ cs) = sumLens bs + sumLens cs := by
  simp [sumLens]

theorem sumLens_take_le (bs : List (List Nat)) :
    ∀ i j, i ≤ j → sumLens (bs.take i) ≤ sumLens (bs.take j) := by
  induction bs with
  | nil => intro i j _; simp
  | cons b bs ih =>
    intro i j hij
    cases i with
    | zero => simp [sumLens]
    | succ i =>
      cases j with
      | zero => omega
      | succ j =>
        rw [List.take_succ_cons, List.take_succ_cons, sumLens_cons, sumLens_cons]
        have := ih i j (by omega)
        omega

theorem dataStart_zero (blobs : List (List Nat)) : dataStart blobs 0 = DATA_1ST := by
  simp [dataStart, sumLens]

theorem dataStart_ge (blobs : List (List Nat)) (i : Nat) :
    DATA_1ST ≤ dataStart blobs i :=
  Nat.le_add_right _ _

theorem dataStart_mono (blobs : List (List Nat)) {i j : Nat} (h : i ≤ j) :
    dataStart blobs i ≤ dataStart blobs j := by
  unfold dataStart
  have := sumLens_take_le blobs i j h
  omega

theorem dataStart_length_eq (blobs : List (List Nat)) :
    dataStart blobs blobs.length = DATA_1ST + sumLens blobs := by
  unfold dataStart
  rw [List.take_length]

theorem dataStart_append_of_le {bs : List (List Nat)} {i : Nat} (b : List Nat)
    (h : i ≤ bs.length) : dataStart (bs ++ [b]) i = dataStart bs i := by
  unfold dataStart
  rw [List.take_append_of_le_length h]

theorem dataStart_append_last (bs : List (List Nat)) (b : List Nat) :
    dataStart (bs ++ [b]) (bs.length + 1) = dataStart bs bs.length + b.length := by
  unfold dataStart
  have hlen : (bs ++ [b]).length = bs.length + 1 := by simp
  rw [← hlen, List.take_length, List.take_length, sumLens_append, sumLens_cons]
  simp [sumLens]
  omega

theorem dataStart_succ_of_lt {blobs : List (List Nat)} {i : Nat}
    (h : i < blobs.length) :
    dataStart blobs (i + 1) = dataStart blobs i + (blobs.getD i []).length := by
  unfold dataStart
  rw [List.take_succ]
  rw [List.getElem?_eq_getElem h]
  rw [sumLens_append]
  rw [List.getD_eq_getElem _ _ h]
  simp [sumLens]
  omega

theorem runStores_inv {ok : Nat → List Nat → Bool} {blobs : List (List Nat)}
    {f : Flash} {ia da : Nat}
    (h : runStores ok blobs = some (f, ia, da)) : StoreInv blobs f ia da := by
  induction blobs using List.reverseRecOn generalizing f ia da with
  | nil =>
    rw [runStores, runFrom_nil] at h
    simp only [Option.some.injEq, Prod.mk.injEq] at h
    obtain ⟨hf, hia, hda⟩ := h
    subst hf
    subst hia
    subst hda
    refine ⟨by simp [INDEX_1ST], (dataStart_zero []).symm,
      by unfold DATA_1ST DATA_END; omega, by simp,
      by simp, by simp, fun a _ _ => rfl⟩
  | append_singleton bs b ih =>
    rw [runStores, runFrom_append] at h
    rcases hmid : runFrom ok (erasedFlash, INDEX_1ST, DATA_1ST) bs with _ | st2
    · rw [hmid] at h
      simp at h
    · rw [hmid] at h
      simp only [Option.some_bind] at h
      rcases st2 with ⟨f1, ia1, da1⟩
      have inv1 : StoreInv bs f1 ia1 da1 := ih hmid
      obtain ⟨h1, h2, h3, h4, h5, h6, h7⟩ := inv1
      rcases hstore : store_image_to_flash ok f1 b ia1 da1 with ⟨res, f2⟩
      cases res with
      | none =>
        rw [runFrom_cons_none hstore] at h
        simp at h
      | some c =>
        rw [runFrom_cons_some hstore, runFrom_nil] at h
        simp only [Option.some.injEq, Prod.mk.injEq] at h
        obtain ⟨hf, hia, hda⟩ := h
        obtain ⟨hbne, hval, hf2, hcval⟩ := store_success_shape hstore
        rw [validate_true_iff] at hval
        have hc1 : c.1 = ia1 + INDEX_ENTRY_SIZE := by rw [hcval]
        have hc2 : c.2 = da1 + b.length := by rw [hcval]
        rw [hc1] at hia
        rw [hc2] at hda
        have hn : (bs ++ [b]).length = bs.length + 1 := by simp
        refine ⟨?_, ?_, ?_, ?_, ?_, ?_, ?_⟩
        · rw [← hia, h1, hn]
          unfold INDEX_ENTRY_SIZE
          omega
        · rw [← hda, hn, dataStart_append_last, h2]
        · rw [← hda]
          exact hval.1
        · rw [hn]
          rw [h1] at hval
          unfold INDEX_END at hval ⊢
          omega
        · intro b' hb'
          rcases List.mem_append.mp hb' with hl | hr
          · exact h5 b' hl
          · rw [List.mem_singleton.mp hr]
            exact hbne
        · intro i hi
          rw [hn] at hi
          have hdage : DATA_1ST ≤ da1 := by rw [h2]; exact dataStart_ge _ _
          by_cases hin : i < bs.length
          · have hpres : read_bytes f (8 * i) INDEX_ENTRY_SIZE =
                read_bytes f1 (8 * i) INDEX_ENTRY_SIZE := by
              rw [← hf, hf2]
              refine read_bytes_congr (fun j hj => ?_)
              unfold INDEX_ENTRY_SIZE at hj
              have hxlt : 8 * i + j < 8 * bs.length := by omega
              rw [@writeList_outside (create_index_entry da1 (da1 + b.length)) _ _ _
                (Or.inl (by rw [h1]; omega))]
              refine writeList_outside (Or.inl ?_)
              unfold DATA_1ST at hdage
              unfold INDEX_END at h4
              omega
            rw [hpres, h6 i hin,
              dataStart_append_of_le b (by omega),
              dataStart_append_of_le b (by omega)]
          · have hieq : i = bs.length := by omega
            subst hieq
            have hread : read_bytes f (8 * bs.length) INDEX_ENTRY_SIZE =
                create_index_entry da1 (da1 + b.length) := by
              rw [← hf, hf2, ← h1]
              have hl8 : INDEX_ENTRY_SIZE =
                  (create_index_entry da1 (da1 + b.length)).length :=
                (create_index_entry_length _ _).symm
              rw [hl8]
              exact read_bytes_writeList _ _ _
            rw [hread, dataStart_append_of_le b (by omega),
              dataStart_append_last, ← h2]
        · intro a ha1 ha2
          rw [hn] at ha1
          rw [← hf, hf2]
          have hdage : DATA_1ST ≤ da1 := by rw [h2]; exact dataStart_ge _ _
          rw [@writeList_outside (create_index_entry da1 (da1 + b.length)) _ _ _
            (Or.inr (by rw [create_index_entry_length, h1]; omega))]
          rw [writeList_outside (Or.inl (by
            unfold DATA_1ST at hdage
            unfold INDEX_END at ha2
            omega))]
          exact h7 a (by omega) ha2

theorem runFrom_okAlways (bs : List (List Nat)) : ∀ (f : Flash) (ia da : Nat),
    (∀ b ∈ bs, b ≠ []) →
    ia + 8 * bs.length ≤ INDEX_END + 1 →
    da + sumLens bs ≤ DATA_END →
    runFrom okAlways (f, ia, da) bs =
      some (buildFlash f ia da bs, ia + 8 * bs.length, da + sumLens bs) := by
  induction bs with
  | nil =>
    intro f ia da _ _ _
    rw [runFrom_nil]
    simp [buildFlash, sumLens]
  | cons b bs ih =>
    intro f ia da hne hia hda
    have hb : b ≠ [] := hne b (List.mem_cons_self b bs)
    rw [sumLens_cons] at hda
    rw [List.length_cons] at hia
    have hval : validate_storage_capacity da b.length ia = true := by
      rw [validate_true_iff]
      unfold INDEX_END at hia ⊢
      constructor
      · omega
      · omega
    have hstore : store_image_to_flash okAlways f b ia da =
        (some (ia + INDEX_ENTRY_SIZE, da + b.length),
          writeList (writeList f da b) ia
            (create_index_entry da (da + b.length))) := by
      unfold store_image_to_flash
      rw [if_neg hb, hval]
      simp only [Bool.true_eq_false, if_false]
      simp only [storeCore]
      rw [write_bytes_okAlways hb]
      simp only [Bool.true_eq_false, if_false]
      rw [write_bytes_okAlways (create_index_entry_ne_nil _ _)]
      simp only [Bool.true_eq_false, if_false]
    rw [runFrom_cons_some hstore]
    rw [ih _ _ _ (fun b' hb' => hne b' (List.mem_cons_of_mem _ hb'))
      (by unfold INDEX_ENTRY_SIZE; omega) (by omega)]
    have e1 : ia + INDEX_ENTRY_SIZE + 8 * bs.length = ia + 8 * (b :: bs).length := by
      rw [List.length_cons]
      unfold INDEX_ENTRY_SIZE
      omega
    have e2 : da + b.length + sumLens bs = da + sumLens (b :: bs) := by
      rw [sumLens_cons]
      omega
    rw [e1, e2]
    rfl

theorem runStores_okAlways {blobs : List (List Nat)}
    (hne : ∀ b ∈ blobs, b ≠ []) (hlen : blobs.length ≤ 1536)
    (hcap : DATA_1ST + sumLens blobs ≤ DATA_END) :
    runStores okAlways blobs =
      some (finalFlash blobs, 8 * blobs.length, DATA_1ST + sumLens blobs) := by
  rw [runStores, runFrom_okAlways blobs erasedFlash INDEX_1ST DATA_1ST hne
    (by unfold INDEX_1ST INDEX_END; omega) hcap]
  have e1 : INDEX_1ST + 8 * blobs.length = 8 * blobs.length := by
    unfold INDEX_1ST
    omega
  rw [e1]
  rfl

/-! ## Lemmas about the recovery engine -/

theorem read_chunks_aux_exact (f : Flash) (s total : Nat) :
    ∀ (n br : Nat) (acc : List Nat), total - br ≤ n →
      read_chunks_aux (exactReader f) s total br acc =
        some (acc ++ read_bytes f (s + br) (total - br)) := by
  intro n
  induction n with
  | zero =>
    intro br acc hn
    rw [read_chunks_aux]
    rw [dif_neg (by omega)]
    have h0 : total - br = 0 := by omega
    rw [h0, read_bytes_zero, List.append_nil]
  | succ n ih =>
    intro br acc hn
    by_cases hlt : br < total
    · rw [read_chunks_aux]
      rw [dif_pos hlt]
      simp only [exactReader]
      set m := min READ_CHUNK_SIZE (total - br) with hm
      have hm1 : 1 ≤ m := by
        unfold READ_CHUNK_SIZE at hm
        omega
      have hmle : m ≤ total - br := by
        unfold READ_CHUNK_SIZE at hm
        omega
      rw [dif_neg (List.ne_nil_of_length_pos
        (by rw [read_bytes_length]; omega))]
      rw [read_bytes_length]
      rw [ih (br + m) (acc ++ read_bytes f (s + br) m) (by omega)]
      have haddr : s + br + m = s + (br + m) := by omega
      have hsplit : read_bytes f (s + br) (total - br) =
          read_bytes f (s + br) m ++
            read_bytes f (s + (br + m)) (total - (br + m)) := by
        have hx : total - br = m + (total - (br + m)) := by omega
        rw [hx, read_bytes_split, haddr]
      rw [hsplit, List.append_assoc]
    · rw [read_chunks_aux]
      rw [dif_neg hlt]
      have h0 : total - br = 0 := by omega
      rw [h0, read_bytes_zero, List.append_nil]

theorem recover_single_image_exact {f : Flash} {s e : Nat} (h : s < e) :
    recover_single_image (exactReader f) s e = some (read_bytes f s (e - s)) := by
  unfold recover_single_image
  rw [if_neg (by omega)]
  unfold read_image_data_in_chunks
  show (match read_chunks_aux (exactReader f) s (e - s) 0 [] with
    | none => none
    | some image_data =>
      if image_data.length ≠ e - s then none else some image_data) =
    some (read_bytes f s (e - s))
  rw [read_chunks_aux_exact f s (e - s) (e - s) 0 [] (by omega)]
  simp [read_bytes_length]

theorem scan_recover_aux_step {rd : Reader} {cur ic rc : Nat}
    (h1 : cur ≤ INDEX_END)
    (h2 : recover_is_index_entry_empty (rd cur INDEX_ENTRY_SIZE) = false) :
    scan_recover_aux rd cur ic rc =
      scan_recover_aux rd (cur + INDEX_ENTRY_SIZE) (ic + 1)
        (if (recover_single_image rd
              (parse_index_entry (rd cur INDEX_ENTRY_SIZE)).1
              (parse_index_entry (rd cur INDEX_ENTRY_SIZE)).2).isSome
         then rc + 1 else rc) := by
  rw [scan_recover_aux]
  rw [if_pos h1]
  simp only [h2, Bool.false_eq_true, if_false]

theorem read_bytes_one (g : Flash) (a : Nat) : read_bytes g a 1 = [g a] := rfl

theorem store_okAlways_eq {B : List Nat} (hB : B ≠ []) (f : Flash) {ia da : Nat}
    (hval : validate_storage_capacity da B.length ia = true) :
    store_image_to_flash okAlways f B ia da =
      (some (ia + INDEX_ENTRY_SIZE, da + B.length),
        writeList (writeList f da B) ia
          (create_index_entry da (da + B.length))) := by
  unfold store_image_to_flash
  rw [if_neg hB, hval]
  simp only [Bool.true_eq_false, if_false]
  simp only [storeCore]
  rw [write_bytes_okAlways hB]
  simp only [Bool.true_eq_false, if_false]
  rw [write_bytes_okAlways (create_index_entry_ne_nil _ _)]
  simp only [Bool.true_eq_false, if_false]

/-! ## Claims -/

/-- Claim C4: `write_bytes` splits the data into consecutive chunks, one
`_write_page` (write-enable + program + busy-wait) cycle per chunk, no chunk
crosses a 256-byte page boundary, the first chunk has length
`min (len D) (256 - a % 256)`, the chunks concatenate back to the data, and
writing 300 bytes starting at page offset 200 yields chunks of 56 and 244
bytes. -/
theorem claim_C4_page_chunking {D : List Nat} (a : Nat) (hD : D ≠ []) :
    (((writeChunks a D).map Prod.snd).flatten = D) ∧
    consecFrom a (writeChunks a D) ∧
    (∀ p ∈ writeChunks a D, p.1 % PAGE_SIZE + p.2.length ≤ PAGE_SIZE) ∧
    (((writeChunks a D).map (fun p => p.2.length)).head? =
      some (min D.length (PAGE_SIZE - a % PAGE_SIZE))) ∧
    ((writeChunks 200 (List.replicate 300 0)).map (fun p => p.2.length) =
      [56, 244]) := by
  refine ⟨writeChunks_flatten a D, writeChunks_consec a D,
    fun p hp => (writeChunks_mem_bounds a D p hp).2.2,
    writeChunks_head_length hD a, ?_⟩
  have hr1 : (List.replicate 300 (0 : Nat)) ≠ [] :=
    List.ne_nil_of_length_pos (by rw [List.length_replicate]; omega)
  rw [writeChunks_cons hr1 200]
  have e1 : min (PAGE_SIZE - 200 % PAGE_SIZE)
      (List.replicate 300 (0 : Nat)).length = 56 := by
    rw [List.length_replicate]
    decide
  rw [e1, List.take_replicate, List.drop_replicate]
  norm_num
  have hr2 : (List.replicate 244 (0 : Nat)) ≠ [] :=
    List.ne_nil_of_length_pos (by rw [List.length_replicate]; omega)
  rw [writeChunks_cons hr2 256]
  have e2 : min (PAGE_SIZE - 256 % PAGE_SIZE)
      (List.replicate 244 (0 : Nat)).length = 244 := by
    rw [List.length_replicate]
    decide
  rw [e2, List.take_replicate, List.drop_replicate]
  norm_num [writeChunks_nil]

/-- Claim C4 witness at address 0 and data `[1]`. -/
theorem claim_C4_witness :
    (((writeChunks 0 [1]).map Prod.snd).flatten = [1]) ∧
    consecFrom 0 (writeChunks 0 [1]) ∧
    (∀ p ∈ writeChunks 0 [1], p.1 % PAGE_SIZE + p.2.length ≤ PAGE_SIZE) ∧
    (((writeChunks 0 [1]).map (fun p => p.2.length)).head? =
      some (min (List.length [1]) (PAGE_SIZE - 0 % PAGE_SIZE))) ∧
    ((writeChunks 200 (List.replicate 300 0)).map (fun p => p.2.length) =
      [56, 244]) :=
  claim_C4_page_chunking 0 (by decide)

/-- Claim C10: every chunk `write_bytes` passes to `_write_page` has length
between 1 and `PAGE_SIZE`, so the oversized-chunk `FlashMemoryError` branch in
`_write_page` is unreachable from `write_bytes`. -/
theorem claim_C10_chunk_safety {D : List Nat} (a : Nat) (hD : D ≠ []) :
    ∀ p ∈ writeChunks a D,
      1 ≤ p.2.length ∧ write_page_oversized p.2 = false := by
  intro p hp
  have h := writeChunks_mem_bounds a D p hp
  refine ⟨h.2.1, ?_⟩
  unfold write_page_oversized
  simp only [decide_eq_false_iff_not, not_lt]
  omega

/-- Claim C10 witness: the single chunk of writing `[1]` at address 0. -/
theorem claim_C10_witness :
    1 ≤ (((0 : Nat), ([1] : List Nat)).2).length ∧
    write_page_oversized ((0 : Nat), ([1] : List Nat)).2 = false := by
  have hch : writeChunks 0 [1] = [((0 : Nat), ([1] : List Nat))] := by
    rw [writeChunks_cons (by decide) 0,
      show min (PAGE_SIZE - 0 % PAGE_SIZE)
        (List.length ([1] : List Nat)) = 1 from by decide]
    show ((0 : Nat), ([1] : List Nat)) :: writeChunks 1 [] = [(0, [1])]
    rw [writeChunks_nil]
  refine @claim_C10_chunk_safety [1] 0 (by decide) (0, [1]) ?_
  rw [hch]
  exact List.mem_singleton.mpr rfl

/-- Claim C7 is a code bug: on the entry `FF FF FF FF 00 00 00 01` the
recovery scan's emptiness test (which looks only at the first 4 bytes)
returns true while the allocator's test (all 8 bytes) returns false, so the
two scans diverge, contradicting the all-8-bytes-0xFF sentinel stated by both
the spec and the recovery function's own docstring. -/
theorem claim_C7_scanner_divergence :
    recover_is_index_entry_empty
      [0xFF, 0xFF, 0xFF, 0xFF, 0x00, 0x00, 0x00, 0x01] = true ∧
    is_index_entry_empty
      [0xFF, 0xFF, 0xFF, 0xFF, 0x00, 0x00, 0x00, 0x01] = false := by
  decide

/-- Claim C8 (amended): `validate_storage_capacity` returns false exactly when
the blob would overflow the data region or the index cursor is past
`INDEX_END`; empty blobs are rejected not by the validation but by the
image-data check at the start of the store cycle; in every rejection case the
store cycle returns failure with the flash untouched. -/
theorem claim_C8_validation :
    (∀ n s i, validate_storage_capacity n s i = false ↔
        DATA_END < n + s ∨ INDEX_END < i) ∧
    (∀ (ok : Nat → List Nat → Bool) (f : Flash) (ia da : Nat),
        store_image_to_flash ok f [] ia da = (none, f)) ∧
    (∀ (ok : Nat → List Nat → Bool) (f : Flash) (B : List Nat) (ia da : Nat),
        validate_storage_capacity da B.length ia = false →
        store_image_to_flash ok f B ia da = (none, f)) :=
  ⟨validate_false_iff, store_empty,
    fun ok f B ia da h => store_invalid ok f ia da h⟩

/-- Claim C8 witness: an index cursor past `INDEX_END` is rejected with the
flash returned unchanged. -/
theorem claim_C8_witness :
    store_image_to_flash okAlways erasedFlash [1] 0x3000 DATA_1ST =
      (none, erasedFlash) :=
  claim_C8_validation.2.2 okAlways erasedFlash [1] 0x3000 DATA_1ST (by decide)

/-- Claim C8 counterexample: contrary to the claim, `validate_storage_capacity`
returns true (not false) for a zero-length blob with in-range cursors. -/
theorem claim_C8_counterexample :
    validate_storage_capacity DATA_1ST 0 INDEX_1ST = true := by
  decide

/-- Claim C9: recovery rejects non-positive sizes and byte counts different
from `end_addr - start_addr` without reaching the file save, and the index
scan counts such an entry as found, leaves the recovered count unchanged, and
continues at the next slot. -/
theorem claim_C9_short_read (rd : Reader) :
    (∀ s e, e ≤ s → recover_single_image rd s e = none) ∧
    (∀ s e, s < e → read_image_data_in_chunks rd s (e - s) = none →
        recover_single_image rd s e = none) ∧
    (∀ s e bytes, s < e → read_image_data_in_chunks rd s (e - s) = some bytes →
        bytes.length ≠ e - s → recover_single_image rd s e = none) ∧
    (∀ cur ic rc, cur ≤ INDEX_END →
        recover_is_index_entry_empty (rd cur INDEX_ENTRY_SIZE) = false →
        recover_single_image rd
          (parse_index_entry (rd cur INDEX_ENTRY_SIZE)).1
          (parse_index_entry (rd cur INDEX_ENTRY_SIZE)).2 = none →
        scan_recover_aux rd cur ic rc =
          scan_recover_aux rd (cur + INDEX_ENTRY_SIZE) (ic + 1) rc) := by
  refine ⟨?_, ?_, ?_, ?_⟩
  · intro s e h
    unfold recover_single_image
    rw [if_pos h]
  · intro s e h hread
    unfold recover_single_image
    rw [if_neg (by omega)]
    show (match read_image_data_in_chunks rd s (e - s) with
      | none => none
      | some image_data =>
        if image_data.length ≠ e - s then none else some image_data) = none
    rw [hread]
  · intro s e bytes h hread hlen
    unfold recover_single_image
    rw [if_neg (by omega)]
    show (match read_image_data_in_chunks rd s (e - s) with
      | none => none
      | some image_data =>
        if image_data.length ≠ e - s then none else some image_data) = none
    rw [hread]
    show (if bytes.length ≠ e - s then none else some bytes) = none
    rw [if_pos hlen]
  · intro cur ic rc h1 h2 hfail
    rw [scan_recover_aux_step h1 h2, hfail]
    simp

/-- Claim C9 witness: a zero-size entry is rejected. -/
theorem claim_C9_witness :
    recover_single_image (exactReader erasedFlash) 5 5 = none :=
  (claim_C9_short_read (exactReader erasedFlash)).1 5 5 (Nat.le_refl 5)

/-- Claim C5: `find_next_available_address` walks 8-byte entries upward from
`INDEX_1ST`; it returns the address of the first all-`0xFF` entry together
with the `end_addr` of the last preceding non-empty entry (`DATA_1ST` when no
entry precedes), and returns the full result `none` when no empty entry
exists at any slot at or before `INDEX_END`. -/
theorem claim_C5_find_next_slot (f : Flash) :
    ((∀ i, i ≤ 1535 →
        is_index_entry_empty (read_bytes f (8 * i) INDEX_ENTRY_SIZE) = false) →
      find_next_available_address f = none) ∧
    (∀ k, k ≤ 1535 →
      is_index_entry_empty (read_bytes f (8 * k) INDEX_ENTRY_SIZE) = true →
      (∀ i, i < k →
        is_index_entry_empty (read_bytes f (8 * i) INDEX_ENTRY_SIZE) = false) →
      find_next_available_address f =
        some (8 * k, if k = 0 then DATA_1ST
          else (parse_index_entry
            (read_bytes f (8 * (k - 1)) INDEX_ENTRY_SIZE)).2)) := by
  constructor
  · intro h
    rw [find_next_available_address]
    have h0 : INDEX_1ST = 8 * 0 := rfl
    rw [h0]
    exact find_next_aux_none_of_full 1536 0 DATA_1ST (by omega)
      (fun i _ hi2 => h i (by omega))
  · intro k hk hemp hne
    rw [find_next_available_address]
    have h0 : INDEX_1ST = 8 * 0 := rfl
    rw [h0]
    rw [find_next_aux_some_of_first_empty k 0 k DATA_1ST (by omega) (by omega)
      hk hemp (fun i _ hi2 => hne i hi2)]
    by_cases hk0 : k = 0
    · rw [if_pos hk0.symm, if_pos hk0]
    · rw [if_neg (fun hc => hk0 hc.symm), if_neg hk0]

/-- Claim C5 witness: on erased flash the very first slot is empty and the
scan reports `(INDEX_1ST, DATA_1ST)`. -/
theorem claim_C5_witness :
    find_next_available_address erasedFlash = some (0, DATA_1ST) :=
  (claim_C5_find_next_slot erasedFlash).2 0 (by omega)
    (is_index_entry_empty_of_erased (fun j _ => rfl))
    (fun i hi => absurd hi (by omega))

/-- Claim C1 (amended): the round-trip holds for every non-empty blob and
validation-accepted cursor pair whose 8-byte index slot ends at or before the
data cursor (`next_index_addr + 8 ≤ next_data_addr`, true of every
allocator-produced cursor pair); without that separation the entry write can
overlap the blob, see the counterexample. -/
theorem claim_C1_round_trip {B : List Nat} {ia da : Nat} (f : Flash)
    (hB : B ≠ [])
    (hval : validate_storage_capacity da B.length ia = true)
    (hdisj : ia + INDEX_ENTRY_SIZE ≤ da) :
    (store_image_to_flash okAlways f B ia da).1 =
      some (ia + INDEX_ENTRY_SIZE, da + B.length) ∧
    recover_single_image
      (exactReader (store_image_to_flash okAlways f B ia da).2)
      da (da + B.length) = some B := by
  rw [store_okAlways_eq hB f hval]
  have hBlen : 1 ≤ B.length := List.length_pos.mpr hB
  refine ⟨rfl, ?_⟩
  rw [recover_single_image_exact (by omega)]
  have hsub : da + B.length - da = B.length := by omega
  rw [hsub]
  have hcongr : read_bytes
      (writeList (writeList f da B) ia (create_index_entry da (da + B.length)))
      da B.length = read_bytes (writeList f da B) da B.length := by
    refine read_bytes_congr (fun i _ => ?_)
    refine writeList_outside (Or.inr ?_)
    rw [create_index_entry_length]
    unfold INDEX_ENTRY_SIZE at hdisj
    omega
  rw [hcongr, read_bytes_writeList]

/-- Claim C1 witness: blob `[42]` stored at the initial cursors round-trips. -/
theorem claim_C1_witness :
    (store_image_to_flash okAlways erasedFlash [42] 0 DATA_1ST).1 =
      some (8, 0x3001) ∧
    recover_single_image
      (exactReader (store_image_to_flash okAlways erasedFlash [42] 0 DATA_1ST).2)
      DATA_1ST (DATA_1ST + 1) = some [42] :=
  claim_C1_round_trip erasedFlash (by decide) (by decide) (by decide)

/-- Claim C1 counterexample: the cursor pair `(0x2FFC, 0x3000)` is accepted by
capacity validation, yet storing `[7]` there makes the index-entry write
overwrite the blob's byte at `0x3000`, so recovery returns a different byte:
the claim fails as stated for arbitrary validation-accepted cursors. -/
theorem claim_C1_counterexample :
    validate_storage_capacity 0x3000 (List.length [7]) 0x2FFC = true ∧
    (store_image_to_flash okAlways erasedFlash [7] 0x2FFC 0x3000).1 =
      some (0x2FFC + INDEX_ENTRY_SIZE, 0x3001) ∧
    recover_single_image
      (exactReader (store_image_to_flash okAlways erasedFlash [7] 0x2FFC 0x3000).2)
      0x3000 0x3001 ≠ some [7] := by
  refine ⟨by decide, ?_, ?_⟩
  · rw [store_okAlways_eq (by decide) erasedFlash (by decide)]
    rfl
  · rw [store_okAlways_eq (by decide) erasedFlash (by decide)]
    dsimp only
    rw [recover_single_image_exact (by decide)]
    have hbyte : (writeList (writeList erasedFlash 0x3000 [7]) 0x2FFC
        (create_index_entry 0x3000 (0x3000 + List.length [7]))) 0x3000 = 0 := by
      rw [writeList_apply]
      rw [if_pos (by constructor <;> decide)]
      decide
    show some (read_bytes (writeList (writeList erasedFlash 0x3000 [7]) 0x2FFC
      (create_index_entry 0x3000 (0x3000 + List.length [7]))) 0x3000 1) ≠
      some [7]
    rw [read_bytes_one, hbyte]
    decide

/-- Claim C3 (amended): when the data-write phase fails and the data cursor
lies at or beyond `DATA_1ST` (true of every allocator-produced cursor), the
store cycle returns failure, writes no index entry, and leaves every byte of
the index region unchanged; for a data cursor inside the index region the
partially-written chunks themselves can alter the index region, see the
counterexample. -/
theorem claim_C3_no_partial_commit {ok : Nat → List Nat → Bool} {f : Flash}
    {B : List Nat} {ia da : Nat}
    (hfail : (write_bytes ok f da B).1 = false) (hda : DATA_1ST ≤ da) :
    (store_image_to_flash ok f B ia da).1 = none ∧
    ∀ a, a ≤ INDEX_END → (store_image_to_flash ok f B ia da).2 a = f a := by
  by_cases hB : B = []
  · subst hB
    rw [store_empty]
    exact ⟨rfl, fun a _ => rfl⟩
  · rcases hval : validate_storage_capacity da B.length ia with _ | _
    · rw [store_invalid ok f ia da hval]
      exact ⟨rfl, fun a _ => rfl⟩
    · unfold store_image_to_flash
      rw [if_neg hB, hval]
      simp only [Bool.true_eq_false, if_false]
      simp only [storeCore]
      rw [hfail]
      rw [if_pos rfl]
      refine ⟨rfl, fun a ha => ?_⟩
      refine write_bytes_outside (Or.inl ?_)
      unfold DATA_1ST at hda
      unfold INDEX_END at ha
      omega

/-- Claim C3 witness: a completely failing device leaves the whole index
region untouched while the store cycle reports failure. -/
theorem claim_C3_witness :
    (store_image_to_flash (fun _ _ => false) erasedFlash [1] 0 DATA_1ST).1 =
      none ∧
    ∀ a, a ≤ INDEX_END →
      (store_image_to_flash (fun _ _ => false) erasedFlash [1] 0 DATA_1ST).2 a =
        erasedFlash a :=
  claim_C3_no_partial_commit
    (write_bytes_fail_oracle (by decide) erasedFlash DATA_1ST) (by decide)

/-- Claim C2: after every successful sequence of store cycles starting from
fully erased flash, the stored index entries describe back-to-back data
ranges: entry 0 starts at `DATA_1ST`, entry `i` starts where entry `i - 1`
ends, and every entry satisfies `end_addr > start_addr`. -/
theorem claim_C2_contiguity {ok : Nat → List Nat → Bool}
    {blobs : List (List Nat)} {f : Flash} {ia da : Nat}
    (h : runStores ok blobs = some (f, ia, da)) :
    ∀ i, i < blobs.length →
      (i = 0 →
        (parse_index_entry (read_bytes f (8 * i) INDEX_ENTRY_SIZE)).1 =
          DATA_1ST) ∧
      (∀ j, i = j + 1 →
        (parse_index_entry (read_bytes f (8 * i) INDEX_ENTRY_SIZE)).1 =
          (parse_index_entry (read_bytes f (8 * j) INDEX_ENTRY_SIZE)).2) ∧
      (parse_index_entry (read_bytes f (8 * i) INDEX_ENTRY_SIZE)).1 <
        (parse_index_entry (read_bytes f (8 * i) INDEX_ENTRY_SIZE)).2 := by
  obtain ⟨h1, h2, h3, h4, h5, h6, h7⟩ := runStores_inv h
  have hbound : ∀ m, m ≤ blobs.length → dataStart blobs m < 2 ^ 32 := by
    intro m hm
    have hmono := dataStart_mono blobs hm
    unfold DATA_END at h3
    omega
  have hparse : ∀ i, i < blobs.length →
      parse_index_entry (read_bytes f (8 * i) INDEX_ENTRY_SIZE) =
        (dataStart blobs i, dataStart blobs (i + 1)) := by
    intro i hi
    rw [h6 i hi]
    exact parse_create_index_entry (hbound i (by omega)) (hbound (i + 1) hi)
  intro i hi
  refine ⟨?_, ?_, ?_⟩
  · intro hi0
    subst hi0
    rw [hparse 0 hi]
    exact dataStart_zero blobs
  · intro j hij
    subst hij
    rw [hparse (j + 1) hi, hparse j (by omega)]
  · rw [hparse i hi]
    dsimp only
    rw [dataStart_succ_of_lt hi]
    have hmem : blobs.getD i [] ∈ blobs := by
      rw [List.getD_eq_getElem _ _ hi]
      exact List.getElem_mem _
    have hne := h5 _ hmem
    have hpos : 0 < (blobs.getD i []).length := List.length_pos.mpr hne
    omega

/-- Claim C2 witness: the first entry after storing the single blob `[5]`. -/
theorem claim_C2_witness :
    ((0 : Nat) = 0 →
      (parse_index_entry
        (read_bytes (finalFlash [[5]]) (8 * 0) INDEX_ENTRY_SIZE)).1 =
        DATA_1ST) ∧
    (∀ j, (0 : Nat) = j + 1 →
      (parse_index_entry
        (read_bytes (finalFlash [[5]]) (8 * 0) INDEX_ENTRY_SIZE)).1 =
        (parse_index_entry
          (read_bytes (finalFlash [[5]]) (8 * j) INDEX_ENTRY_SIZE)).2) ∧
    (parse_index_entry
      (read_bytes (finalFlash [[5]]) (8 * 0) INDEX_ENTRY_SIZE)).1 <
      (parse_index_entry
        (read_bytes (finalFlash [[5]]) (8 * 0) INDEX_ENTRY_SIZE)).2 :=
  claim_C2_contiguity
    (runStores_okAlways (by decide) (by decide) (by decide)) 0 (by decide)

/-- Claim C6 (amended): re-running `find_next_available_address` after a
prefix of successful stores returns exactly the cursors the last store
returned (or `(INDEX_1ST, DATA_1ST)` for the empty prefix) whenever fewer
than 1536 entries have been written; when the prefix fills the index
completely the rescan instead reports full (`none`), see the
counterexample. -/
theorem claim_C6_idempotence {ok : Nat → List Nat → Bool}
    {blobs : List (List Nat)} {f : Flash} {ia da : Nat}
    (h : runStores ok blobs = some (f, ia, da))
    (hlen : blobs.length < 1536) :
    find_next_available_address f = some (ia, da) := by
  obtain ⟨h1, h2, h3, h4, h5, h6, h7⟩ := runStores_inv h
  rw [find_next_available_address]
  have h0 : INDEX_1ST = 8 * 0 := rfl
  rw [h0]
  have hbound : ∀ m, m ≤ blobs.length → dataStart blobs m ≤ DATA_END := by
    intro m hm
    have hmono := dataStart_mono blobs hm
    omega
  have hemp : is_index_entry_empty
      (read_bytes f (8 * blobs.length) INDEX_ENTRY_SIZE) = true := by
    apply is_index_entry_empty_of_erased
    intro j hj
    apply h7
    · omega
    · unfold INDEX_END
      omega
  have hne : ∀ i, i < blobs.length →
      is_index_entry_empty (read_bytes f (8 * i) INDEX_ENTRY_SIZE) = false := by
    intro i hi
    rw [h6 i hi]
    exact is_index_entry_empty_create (hbound i (by omega)) _
  rw [find_next_aux_some_of_first_empty blobs.length 0 blobs.length DATA_1ST
    (by omega) (by omega) (by omega) hemp (fun i _ hi2 => hne i hi2)]
  by_cases hn0 : blobs.length = 0
  · rw [if_pos hn0.symm]
    rw [h1, h2, hn0, dataStart_zero]
  · rw [if_neg (fun hc => hn0 hc.symm)]
    have hn1 : blobs.length - 1 < blobs.length := by omega
    rw [h6 _ hn1]
    have hs : dataStart blobs (blobs.length - 1) < 2 ^ 32 := by
      have := hbound (blobs.length - 1) (by omega)
      unfold DATA_END at this
      omega
    have he : dataStart blobs (blobs.length - 1 + 1) < 2 ^ 32 := by
      have := hbound (blobs.length - 1 + 1) (by omega)
      unfold DATA_END at this
      omega
    rw [parse_create_index_entry hs he]
    dsimp only
    have hsucc : blobs.length - 1 + 1 = blobs.length := by omega
    rw [hsucc, h1, h2]

/-- Claim C6 witness: after storing `[1, 2, 3]`, rescanning returns the
cursors the store returned. -/
theorem claim_C6_witness :
    find_next_available_address (finalFlash [[1, 2, 3]]) = some (8, 0x3003) :=
  claim_C6_idempotence
    (runStores_okAlways (by decide) (by decide) (by decide)) (by decide)

/-- Claim C6 counterexample: 1536 successful one-byte stores fill the index;
the last store returned cursors `(0x3000, 0x3600)` but re-running the scan
returns the full result `none` instead of those cursors. -/
theorem claim_C6_counterexample :
    runStores okAlways (List.replicate 1536 [0]) =
      some (finalFlash (List.replicate 1536 [0]), 8 * 1536,
        DATA_1ST + sumLens (List.replicate 1536 [0])) ∧
    find_next_available_address (finalFlash (List.replicate 1536 [0])) =
      none := by
  have hne : ∀ b ∈ List.replicate 1536 ([0] : List Nat), b ≠ [] := by
    intro b hb
    rw [List.eq_of_mem_replicate hb]
    decide
  have hsum : sumLens (List.replicate 1536 ([0] : List Nat)) = 1536 := by
    unfold sumLens
    rw [List.map_replicate, List.sum_replicate]
    simp
  have hcap : DATA_1ST + sumLens (List.replicate 1536 ([0] : List Nat)) ≤
      DATA_END := by
    rw [hsum]
    decide
  have hlen : (List.replicate 1536 ([0] : List Nat)).length ≤ 1536 := by
    simp
  have hrun := runStores_okAlways hne hlen hcap
  refine ⟨hrun, ?_⟩
  obtain ⟨h1, h2, h3, h4, h5, h6, h7⟩ := runStores_inv hrun
  rw [find_next_available_address]
  have h0 : INDEX_1ST = 8 * 0 := rfl
  rw [h0]
  apply find_next_aux_none_of_full 1536 0 DATA_1ST (by omega)
  intro i _ hi
  have hilen : i < (List.replicate 1536 ([0] : List Nat)).length := by
    rw [List.length_replicate]
    exact hi
  rw [h6 i hilen]
  apply is_index_entry_empty_create
  have hm := dataStart_mono (List.replicate 1536 ([0] : List Nat))
    (le_of_lt hilen)
  omega

/-- Claim C3 counterexample: with the data cursor at `0x2FFF` (inside the
index region — capacity validation does not exclude it) and a device that
programs the first page chunk but fails the second, the data-write phase
fails, store returns failure and writes no index entry, yet index byte
`0x2FFF` has changed: the claim's "index region unchanged" fails as stated
for arbitrary cursors. -/
theorem claim_C3_counterexample :
    (write_bytes (fun a _ => a == 0x2FFF) erasedFlash 0x2FFF [0, 0]).1 =
      false ∧
    (store_image_to_flash (fun a _ => a == 0x2FFF) erasedFlash [0, 0] 0
      0x2FFF).1 = none ∧
    (store_image_to_flash (fun a _ => a == 0x2FFF) erasedFlash [0, 0] 0
      0x2FFF).2 0x2FFF ≠ erasedFlash 0x2FFF := by
  have e1 : min (PAGE_SIZE - 0x2FFF % PAGE_SIZE)
      (List.length ([0, 0] : List Nat)) = 1 := by decide
  have hch1 : writeChunks 0x2FFF [0, 0] =
      (0x2FFF, [0]) :: writeChunks 0x3000 [0] := by
    rw [writeChunks_cons (by decide) 0x2FFF, e1]
    rfl
  have e2 : min (PAGE_SIZE - 0x3000 % PAGE_SIZE)
      (List.length ([0] : List Nat)) = 1 := by decide
  have hch2 : writeChunks 0x3000 ([0] : List Nat) = [(0x3000, [0])] := by
    rw [writeChunks_cons (by decide) 0x3000, e2]
    show ((0x3000 : Nat), ([0] : List Nat)) :: writeChunks 0x3001 [] =
      [(0x3000, [0])]
    rw [writeChunks_nil]

  have hwb : write_bytes (fun a _ => a == 0x2FFF) erasedFlash 0x2FFF [0, 0] =
      (false, writeList erasedFlash 0x2FFF [0]) := by
    unfold write_bytes
    rw [if_neg (by decide), hch1, hch2]
    simp only [writePages]
    rw [if_pos (by decide)]
    rw [if_neg (by decide)]
  have hstore : store_image_to_flash (fun a _ => a == 0x2FFF) erasedFlash
      [0, 0] 0 0x2FFF = (none, writeList erasedFlash 0x2FFF [0]) := by
    unfold store_image_to_flash
    rw [if_neg (by decide)]
    rw [show validate_storage_capacity 0x2FFF
      (List.length ([0, 0] : List Nat)) 0 = true from by decide]
    simp only [Bool.true_eq_false, if_false]
    simp only [storeCore]
    rw [hwb]
    dsimp only
    rw [if_pos rfl]
  refine ⟨?_, ?_, ?_⟩
  · rw [hwb]
  · rw [hstore]
  · rw [hstore]
    decide

end CubesatFlash
